import Mathlib

/-!
Verification of the LiveTS core package against its specification.

Strings from the TypeScript source are modelled as lists of characters
(List Char); JavaScript runtime values interpolated into templates are
modelled by the inductive type JSVal; code that can throw is modelled by
JsResult.  Every definition is translated from the TypeScript source files
of packages/core/src (utils.ts, decorators.ts, server.ts).
-/

namespace LiveTS

/-- Outcome of a JavaScript computation: a value, or a thrown exception. -/
inductive JsResult (α : Type) : Type
  | ok (a : α) : JsResult α
  | thrown : JsResult α
  deriving DecidableEq, Repr

/-- Model of a JavaScript value that can be interpolated by the html
tagged-template function in utils.ts: a string, a number (integers only,
which is all the spec's claims concern), a boolean, null, undefined, or
an object carrying the string its toString method returns. -/
inductive JSVal : Type
  | str (s : List Char) : JSVal
  | num (n : Int) : JSVal
  | boolean (b : Bool) : JSVal
  | nullV : JSVal
  | undef : JSVal
  | obj (toStr : List Char) : JSVal
  deriving DecidableEq, Repr

/-- Replaces every occurrence of the single character pat by the list rep;
this is the semantics of the global one-character regex replaces used by
escapeHtml in utils.ts. -/
def replaceAllChar (pat : Char) (rep : List Char) : List Char → List Char
  | [] => []
  | c :: cs => (if c = pat then rep else [c]) ++ replaceAllChar pat rep cs

/-- escapeHtml from utils.ts: five sequential global single-character
replaces, applied in source order (amp, lt, gt, quot, apos). -/
def escapeHtml (s : List Char) : List Char :=
  replaceAllChar '\'' ("&#039;".data)
    (replaceAllChar '"' ("&quot;".data)
      (replaceAllChar '>' ("&gt;".data)
        (replaceAllChar '<' ("&lt;".data)
          (replaceAllChar '&' ("&amp;".data) s))))

/-- The string that JavaScript's default toString produces for each JSVal;
only values reaching the toString branch of html are ever asked for it. -/
def jsToString : JSVal → List Char
  | .str s => s
  | .num n => (toString n).data
  | .boolean true => "true".data
  | .boolean false => "false".data
  | .nullV => "null".data
  | .undef => "undefined".data
  | .obj s => s

/-- Whether the value is neither null nor undefined and owns a callable
toString (every remaining JSVal does, mirroring JavaScript prototypes). -/
def hasToString : JSVal → Bool
  | .nullV => false
  | .undef => false
  | _ => true

/-- The interpolation of one template value by html in utils.ts: strings
are escaped; any non-null non-undefined value with a toString is
stringified then escaped; a remaining value equal to 0 would print 0;
anything else contributes nothing. -/
def renderValue (v : JSVal) : List Char :=
  match v with
  | .str s => escapeHtml s
  | _ =>
    if hasToString v then escapeHtml (jsToString v)
    else if v = .num 0 then ['0']
    else []

/-- The html tagged-template function from utils.ts: alternates the literal
chunks with the rendered values; literal chunks beyond the values are
appended verbatim, values beyond the chunks are dropped. -/
def htmlTT : List (List Char) → List JSVal → List Char
  | [], _ => []
  | s :: ss, [] => s ++ htmlTT ss []
  | s :: ss, v :: vs => s ++ renderValue v ++ htmlTT ss vs

/-- JavaScript String.prototype.split on the single-character separator
used by the compact wire format: splitting the empty string yields one
empty field, and every separator starts a new field. -/
def splitPipe : List Char → List (List Char)
  | [] => [[]]
  | c :: t =>
    if c = '|' then [] :: splitPipe t
    else
      match splitPipe t with
      | h :: r => (c :: h) :: r
      | [] => [[c]]

/-- The compact client event encoder embedded in the fallback connector
script of server.ts: a double-quoted, pipe-separated record with literal
tag e, the 8-character short component id, the handler name, the input
value, 1 or 0 for checked, and the lowercased tag name. -/
def encodeCompactEvent (shortId eventName value : List Char) (checked : Bool)
    (tagName : List Char) : List Char :=
  '"' :: ('e' :: '|' :: shortId ++ '|' :: eventName ++ '|' :: value ++
    '|' :: (if checked then ['1'] else ['0']) ++ '|' :: tagName ++ ['"'])

/-- ASCII model of JavaScript's toLowerCase, applied by the decoder to the
tag-name field. -/
def jsToLowerCase (l : List Char) : List Char := l.map Char.toLower

/-- The field-reading half of handleCompactEvent in server.ts, applied to
the list of pipe-separated fields: reject records with fewer than three
fields or whose first field is not e, then read the five fields with empty
defaults, interpret checked as equality with 1, and lowercase the tag
name. -/
def decodeParts (parts : List (List Char)) :
    Option (List Char × List Char × List Char × Bool × List Char) :=
  if parts.length < 3 then none
  else if ¬ (parts.getD 0 [] = ['e']) then none
  else some (parts.getD 1 [], parts.getD 2 [], parts.getD 3 [],
    parts.getD 4 [] = ['1'], jsToLowerCase (parts.getD 5 []))

/-- The parsing portion of handleCompactEvent in server.ts: strip the
surrounding quotes with slice, split the content on pipes, and extract the
(shortId, eventName, value, checked, tagName) tuple. -/
def decodeCompactEvent (data : List Char) :
    Option (List Char × List Char × List Char × Bool × List Char) :=
  decodeParts (splitPipe ((data.drop 1).dropLast))

/-- Whether needle is an initial segment of hay, character by character. -/
def beginsWith : List Char → List Char → Bool
  | [], _ => true
  | _ :: _, [] => false
  | a :: as, b :: bs => a == b && beginsWith as bs

/-- JavaScript String.prototype.includes: needle occurs somewhere in hay. -/
def jsIncludes : List Char → List Char → Bool
  | [], needle => beginsWith needle []
  | hay@(_ :: t), needle => beginsWith needle hay || jsIncludes t needle

/-- ASCII model of the JavaScript whitespace class matched by the leading
backslash-s-star of the boundary-marker regex in decorators.ts. -/
def jsIsSpace (c : Char) : Bool :=
  c == ' ' || c == '\t' || c == '\n' || c == '\r' ||
    c == Char.ofNat 11 || c == Char.ofNat 12

/-- The regex word class backslash-w: ASCII letters, digits, underscore. -/
def isWordChar (c : Char) : Bool := c.isAlpha || c.isDigit || c == '_'

/-- The boundary-marker attribute text (without the leading space and the
closing angle bracket) that wrapWithComponentId splices into the root tag. -/
def markerFor (id : List Char) : List Char :=
  "data-livets-id=\"".data ++ id ++ ['"']

/-- Strips a required leading character, as one step of a regex match:
some tail when the list starts with c, none otherwise. -/
def afterChar (c : Char) : List Char → Option (List Char)
  | x :: t => if x = c then some t else none
  | [] => none

/-- The single anchored regex replace inside wrapWithComponentId in
decorators.ts: if the markup starts with optional whitespace followed by an
opening tag, splice the boundary-marker attribute before the closing angle
bracket of that tag; otherwise return the markup unchanged. -/
def wrapTry (id html : List Char) : List Char :=
  match afterChar '<' (html.dropWhile jsIsSpace) with
  | none => html
  | some r2 =>
    if r2.takeWhile isWordChar = [] then html
    else
      match afterChar '>'
          ((r2.dropWhile isWordChar).dropWhile (fun c => !(c == '>'))) with
      | some rem =>
        html.takeWhile jsIsSpace ++
          '<' :: (r2.takeWhile isWordChar ++
            (r2.dropWhile isWordChar).takeWhile (fun c => !(c == '>')) ++
            ' ' :: (markerFor id ++ '>' :: rem))
      | none => html

/-- wrapWithComponentId from decorators.ts: the regex replace result, or the
div fallback when that result is the empty (falsy) string. -/
def wrapWithComponentId (id html : List Char) : List Char :=
  if wrapTry id html = [] then
    "<div data-livets-id=\"".data ++ id ++ "\">".data ++ html ++ "</div>".data
  else wrapTry id html

/-- Whether the markup starts (after optional whitespace) with an opening
tag the boundary-marker regex can match: a lt, at least one word character,
and a closing gt further on. -/
def startsWithTag (l : List Char) : Bool :=
  match afterChar '<' (l.dropWhile jsIsSpace) with
  | none => false
  | some r2 =>
    !(r2.takeWhile isWordChar).isEmpty &&
      (afterChar '>'
        ((r2.dropWhile isWordChar).dropWhile (fun c => !(c == '>')))).isSome

/-- How a user lifecycle hook can behave when invoked: throw synchronously,
return a value or promise that resolves, or return a promise that rejects. -/
inductive HookBehavior : Type
  | throwsSync : HookBehavior
  | resolves : HookBehavior
  | rejects : HookBehavior
  deriving DecidableEq, Repr

/-- Model of one LiveView instance from decorators.ts: its identity, the
mounted flag of its metadata, its state object, the two subscription
collections (the handler map and the metadata channel set), and the
behaviour of its user hooks (mount, updated, unmount) and of its user
render, each taken as the outcome the user code produces when invoked. -/
structure LiveViewM : Type where
  componentId : List Char
  mounted : Bool
  state : List (String × JSVal)
  subsHandlers : List String
  metaSubs : List String
  mountHook : JsResult Unit
  updatedHook : Option HookBehavior
  unmountHook : Option HookBehavior
  renderResult : JsResult (List Char)
  deriving DecidableEq, Repr

/-- The internal render of decorators.ts: throw when not mounted, rethrow a
user render failure, otherwise wrap the markup with the component id. -/
def lv_render (lv : LiveViewM) : JsResult (List Char) :=
  if lv.mounted = false then JsResult.thrown
  else
    match lv.renderResult with
    | JsResult.thrown => JsResult.thrown
    | JsResult.ok h => JsResult.ok (wrapWithComponentId lv.componentId h)

/-- Result of one call to the internal mount: the instance afterwards,
whether the call threw, and whether the user mount hook ran. -/
structure MountOut : Type where
  lv : LiveViewM
  threw : Bool
  ranHook : Bool
  deriving DecidableEq, Repr

/-- The internal mount of decorators.ts: return immediately when already
mounted; otherwise run the user mount hook, set the mounted flag on
success, and rethrow (leaving the flag unset) on failure. -/
def lv_mount (lv : LiveViewM) : MountOut :=
  if lv.mounted then ⟨lv, false, false⟩
  else
    match lv.mountHook with
    | JsResult.ok _ => ⟨{ lv with mounted := true }, false, true⟩
    | JsResult.thrown => ⟨lv, true, true⟩

/-- Result of one call to the internal unmount: the instance afterwards,
whether the call threw, whether the user unmount hook ran, and the channels
unsubscribed during the call. -/
structure UnmountOut : Type where
  lv : LiveViewM
  threw : Bool
  ranHook : Bool
  unsubscribed : List String
  deriving DecidableEq, Repr

/-- The internal unmount of decorators.ts: return immediately when not
mounted; otherwise unsubscribe every channel of the metadata set from both
collections, then run the user unmount hook (awaited, so both a synchronous
throw and a rejection are rethrown by the catch block, leaving the mounted
flag set), and clear the mounted flag only when the hook did not fail. -/
def lv_unmount (lv : LiveViewM) : UnmountOut :=
  if lv.mounted = false then ⟨lv, false, false, []⟩
  else
    match lv.unmountHook with
    | some HookBehavior.throwsSync =>
      ⟨{ lv with
          subsHandlers := lv.subsHandlers.filter
            (fun c => !(lv.metaSubs.contains c))
          metaSubs := lv.metaSubs.filter
            (fun c => !(lv.metaSubs.contains c)) }, true, true, lv.metaSubs⟩
    | some HookBehavior.rejects =>
      ⟨{ lv with
          subsHandlers := lv.subsHandlers.filter
            (fun c => !(lv.metaSubs.contains c))
          metaSubs := lv.metaSubs.filter
            (fun c => !(lv.metaSubs.contains c)) }, true, true, lv.metaSubs⟩
    | some HookBehavior.resolves =>
      ⟨{ lv with
          mounted := false
          subsHandlers := lv.subsHandlers.filter
            (fun c => !(lv.metaSubs.contains c))
          metaSubs := lv.metaSubs.filter
            (fun c => !(lv.metaSubs.contains c)) }, false, true, lv.metaSubs⟩
    | none =>
      ⟨{ lv with
          mounted := false
          subsHandlers := lv.subsHandlers.filter
            (fun c => !(lv.metaSubs.contains c))
          metaSubs := lv.metaSubs.filter
            (fun c => !(lv.metaSubs.contains c)) }, false, false, lv.metaSubs⟩

/-- JavaScript object spread of updates over base, as an association list:
the base entries with updated values, followed by the update entries whose
keys are new. -/
def spreadMerge (base updates : List (String × JSVal)) :
    List (String × JSVal) :=
  base.map (fun p =>
    match updates.lookup p.1 with
    | some v => (p.1, v)
    | none => p) ++
    updates.filter (fun p => (base.lookup p.1).isNone)

/-- Result of one call to setState: the instance afterwards, whether the
call threw back to its caller, and whether a re-render was scheduled. -/
structure SetStateOut : Type where
  lv : LiveViewM
  threw : Bool
  scheduled : Bool
  deriving DecidableEq, Repr

/-- setState from decorators.ts: spread-merge the updates into the state,
schedule a re-render when mounted, then invoke the optional updated hook
wrapped in a promise whose rejections are only logged; a synchronous throw
from the hook, however, escapes before that promise exists. -/
def lv_setState (lv : LiveViewM) (updates : List (String × JSVal)) :
    SetStateOut :=
  match lv.updatedHook with
  | some HookBehavior.throwsSync =>
    ⟨{ lv with state := spreadMerge lv.state updates }, true, lv.mounted⟩
  | _ =>
    ⟨{ lv with state := spreadMerge lv.state updates }, false, lv.mounted⟩

/-- The observable behaviour of one registered component during one event
cycle of server.ts: the outcome of its user event handler, of the render
used to seed a missing cache entry, and of the post-event re-render. -/
structure EventComponent : Type where
  handlerOutcome : JsResult Unit
  renderBefore : JsResult String
  renderAfter : JsResult String
  deriving DecidableEq, Repr

/-- processEventAndGenerateMessage from server.ts, returning both the
message it produces (none models the null return) and the cache entry for
the component after the call.  Message generation (the Rust engine call
with its string-building fallback) is abstracted as the total function
genMessage of the old and new markup, since neither path can fail the
cycle.  An unregistered component yields null; a missing cache entry is
seeded by a render whose failure propagates; a handler failure or a
re-render failure yields null and leaves the cache untouched; on success
the cache is updated to the new markup before the message is built. -/
def processEventAndGenerateMessage (comp : Option EventComponent)
    (cache : Option String) (genMessage : String → String → String) :
    JsResult (Option String × Option String) :=
  match comp with
  | none => JsResult.ok (none, cache)
  | some c =>
    match (match cache with
           | some h => JsResult.ok h
           | none => c.renderBefore) with
    | JsResult.thrown => JsResult.thrown
    | JsResult.ok oldHtml =>
      match c.handlerOutcome with
      | JsResult.thrown => JsResult.ok (none, cache)
      | JsResult.ok _ =>
        match c.renderAfter with
        | JsResult.thrown => JsResult.ok (none, cache)
        | JsResult.ok newHtml =>
          JsResult.ok (some (genMessage oldHtml newHtml), some newHtml)

/-- Tag-name characters of the injector regex in utils.ts: ASCII letters,
digits and hyphen. -/
def isTagChar (c : Char) : Bool := c.isAlpha || c.isDigit || c == '-'

/-- One attempted match of the element regex of
injectReactiveSelectorsSmart, at a position just after a lt: a leading
letter, then the maximal run of tag-name characters, then the shortest run
up to the next gt.  Returns the tag name, the attribute text and the
remainder after the gt, or none when the regex cannot match here. -/
def parseTag : List Char → Option (List Char × List Char × List Char)
  | [] => none
  | c :: cs =>
    if c.isAlpha then
      match afterChar '>'
          ((cs.dropWhile isTagChar).dropWhile (fun x => !(x == '>'))) with
      | some rem =>
        some (c :: cs.takeWhile isTagChar,
          (cs.dropWhile isTagChar).takeWhile (fun x => !(x == '>')), rem)
      | none => none
    else none

/-- The 36 digit characters of JavaScript's toString(36). -/
def base36Digit (n : Nat) : Char :=
  if n < 10 then Char.ofNat ('0'.toNat + n) else Char.ofNat ('a'.toNat + n - 10)

def toBase36Go (n : Nat) (acc : List Char) : List Char :=
  if h : n = 0 then acc
  else toBase36Go (n / 36) (base36Digit (n % 36) :: acc)
  termination_by n
  decreasing_by exact Nat.div_lt_self (Nat.pos_of_ne_zero h) (by norm_num)

/-- JavaScript's Number.prototype.toString(36) on a non-negative integer:
repeated division by 36, most significant digit first. -/
def toBase36 (n : Nat) : List Char :=
  if n = 0 then ['0'] else toBase36Go n []

/-- ToInt32 of ECMAScript: reduce an integer into the signed 32-bit
range. -/
def toInt32 (n : Int) : Int := (n + 2 ^ 31) % 2 ^ 32 - 2 ^ 31

/-- One iteration of the rolling hash of createShortHash in utils.ts:
shift left five (as int32), subtract, add the character code, and force
back into int32 with the self bitwise-and. -/
def hashStep (h : Int) (c : Char) : Int :=
  toInt32 (toInt32 (h * 32) - h + c.toNat)

/-- JavaScript String.prototype.padStart with the zero character. -/
def padStartZeros (n : Nat) (l : List Char) : List Char :=
  List.replicate (n - l.length) '0' ++ l

/-- createShortHash from utils.ts: fold the rolling hash over the input,
take the absolute value in base 36, keep at most eight characters and pad
to eight with zeros. -/
def createShortHash (input : List Char) : List Char :=
  padStartZeros 8 ((toBase36 (input.foldl hashStep 0).natAbs).take 8)

/-- The attribute marker whose presence makes the injector skip an
element. -/
def selMarker : List Char := "data-ts-sel=".data

/-- The interaction marker searched for in attribute text. -/
def tsOnMarker : List Char := "ts-on:".data

/-- The class marker searched for in attribute text. -/
def classMarker : List Char := "class=".data

/-- The global regex replace of injectReactiveSelectorsSmart in utils.ts,
scanning left to right: text outside matches is copied verbatim; each
matched element keeps its text when its attributes already contain the
data-ts-sel marker, receives a fresh selector token (short hash, dot,
base-36 counter) when they contain ts-on: or class=, and is copied
verbatim otherwise.  The counter advances only when a token is
inserted. -/
def injectLoop (hash : List Char) : List Char → Nat → List Char
  | [], _ => []
  | c :: cs, k =>
    if c = '<' then
      match hp : parseTag cs with
      | some (name, attrs, rem) =>
        if jsIncludes attrs selMarker then
          '<' :: (name ++ attrs ++ '>' :: injectLoop hash rem k)
        else if jsIncludes attrs tsOnMarker || jsIncludes attrs classMarker then
          '<' :: (name ++ ' ' :: (selMarker ++ '"' :: (hash ++ '.' ::
            (toBase36 k ++ '"' :: attrs))) ++ '>' :: injectLoop hash rem (k + 1))
        else
          '<' :: (name ++ attrs ++ '>' :: injectLoop hash rem k)
      | none => '<' :: injectLoop hash cs k
    else c :: injectLoop hash cs k
  termination_by l _ => l.length
  decreasing_by
    all_goals simp only [List.length_cons]
    all_goals first
      | exact Nat.lt_succ_self _
      | · have hlt : rem.length < cs.length := by
            cases cs with
            | nil => simp [parseTag] at hp
            | cons c0 cs0 =>
              unfold parseTag at hp
              dsimp only at hp
              by_cases hc0 : c0.isAlpha
              · rw [if_pos hc0] at hp
                cases hrem : afterChar '>'
                    ((cs0.dropWhile isTagChar).dropWhile
                      (fun x => !(x == '>'))) with
                | none => rw [hrem] at hp; simp at hp
                | some rem0 =>
                  rw [hrem] at hp
                  simp only [Option.some.injEq, Prod.mk.injEq] at hp
                  obtain ⟨e1, e2, e3⟩ := hp
                  subst e3
                  have hchain : (cs0.dropWhile isTagChar).dropWhile
                      (fun x => !(x == '>')) = '>' :: rem0 := by
                    cases hl2 : (cs0.dropWhile isTagChar).dropWhile
                        (fun x => !(x == '>')) with
                    | nil => rw [hl2] at hrem; simp [afterChar] at hrem
                    | cons y ys =>
                      rw [hl2] at hrem
                      unfold afterChar at hrem
                      dsimp only at hrem
                      by_cases hy : y = '>'
                      · rw [if_pos hy] at hrem
                        injection hrem with he
                        rw [hy, he]
                      · rw [if_neg hy] at hrem
                        exact absurd hrem (by simp)
                  have hlen1 : ('>' :: rem0).length ≤
                      (cs0.dropWhile isTagChar).length := by
                    rw [← hchain]
                    exact (List.dropWhile_sublist _).length_le
                  have hlen2 : (cs0.dropWhile isTagChar).length ≤
                      cs0.length :=
                    (List.dropWhile_sublist _).length_le
                  simp only [List.length_cons] at hlen1 ⊢
                  omega
              · rw [if_neg hc0] at hp; simp at hp
          omega

/-- injectReactiveSelectorsSmart from utils.ts: run the injector scan with
the component's short hash and the counter starting at zero (stateKeys is
accepted and unused, as in the source). -/
def injectReactiveSelectorsSmart (html componentId : List Char)
    (stateKeys : List (List Char)) : List Char :=
  injectLoop (createShortHash componentId) html 0

theorem renderValue_num_zero : renderValue (JSVal.num 0) = ['0'] := by decide

theorem htmlTT_cons (s : List Char) (ss : List (List Char)) (v : JSVal)
    (vs : List JSVal) :
    htmlTT (s :: ss) (v :: vs) = s ++ renderValue v ++ htmlTT ss vs := rfl

/-- C1: the html tagged-template function renders a template-value equal to
the number 0 as the literal character 0 at its position in the output,
never as empty content. -/
theorem html_renders_zero_literally
    (ss : List (List Char)) (vs₁ vs₂ : List JSVal)
    (h : vs₁.length < ss.length) :
    htmlTT ss (vs₁ ++ JSVal.num 0 :: vs₂) =
      htmlTT (ss.take (vs₁.length + 1)) vs₁ ++
        '0' :: htmlTT (ss.drop (vs₁.length + 1)) vs₂ := by
  induction vs₁ generalizing ss with
  | nil =>
    match ss, h with
    | s :: ss', _ =>
      simp [htmlTT, renderValue_num_zero]
  | cons v vs₁' ih =>
    match ss, h with
    | s :: ss', h =>
      have h' : vs₁'.length < ss'.length := by
        simpa [Nat.succ_lt_succ_iff] using h
      simp only [List.cons_append, htmlTT, List.length_cons, List.take_succ_cons,
        List.drop_succ_cons, List.append_eq, ih ss' h', List.append_assoc]

/-- Witness for C1 at the concrete template with chunks a, b around the
value 0. -/
theorem html_renders_zero_literally_witness :
    htmlTT ["a".data, "b".data] ([] ++ JSVal.num 0 :: []) =
      htmlTT (["a".data, "b".data].take 1) [] ++
        '0' :: htmlTT (["a".data, "b".data].drop 1) [] :=
  html_renders_zero_literally ["a".data, "b".data] [] [] (by decide)

/-- Membership in the output of a single-character global replace comes
either from the replacement list or from a source character distinct from
the pattern. -/
theorem mem_replaceAllChar {c : Char} {pat : Char} {rep l : List Char}
    (h : c ∈ replaceAllChar pat rep l) :
    c ∈ rep ∨ (c ∈ l ∧ c ≠ pat) := by
  induction l with
  | nil => simp [replaceAllChar] at h
  | cons a as ih =>
    simp only [replaceAllChar, List.mem_append] at h
    rcases h with h | h
    · by_cases hp : a = pat
      · rw [if_pos hp] at h
        exact Or.inl h
      · rw [if_neg hp] at h
        simp only [List.mem_singleton] at h
        subst h
        exact Or.inr ⟨List.mem_cons_self _ _, hp⟩
    · rcases ih h with h' | ⟨hm, hne⟩
      · exact Or.inl h'
      · exact Or.inr ⟨List.mem_cons_of_mem _ hm, hne⟩

/-- No character of escapeHtml's output is one of the four active HTML
characters lt, gt, double quote, apostrophe. -/
theorem escapeHtml_no_specials {c : Char} {s : List Char}
    (h : c ∈ escapeHtml s) :
    c ≠ '<' ∧ c ≠ '>' ∧ c ≠ '"' ∧ c ≠ '\'' := by
  unfold escapeHtml at h
  rcases mem_replaceAllChar h with h1 | ⟨h1, hq1⟩
  · fin_cases h1 <;> decide
  rcases mem_replaceAllChar h1 with h2 | ⟨h2, hq2⟩
  · fin_cases h2 <;> decide
  rcases mem_replaceAllChar h2 with h3 | ⟨h3, hq3⟩
  · fin_cases h3 <;> decide
  rcases mem_replaceAllChar h3 with h4 | ⟨h4, hq4⟩
  · fin_cases h4 <;> decide
  rcases mem_replaceAllChar h4 with h5 | ⟨_, _⟩
  · fin_cases h5 <;> decide
  · exact ⟨hq4, hq3, hq2, hq1⟩

/-- C10: escapeHtml leaves no lt, gt, double-quote or apostrophe character
in its output, and the html tagged-template function routes every plain
string value through escapeHtml before concatenation. -/
theorem escapeHtml_sanitizes_and_html_uses_it (s : List Char) :
    ((escapeHtml s).all
      (fun c => !(c == '<') && !(c == '>') && !(c == '"') && !(c == '\''))) = true ∧
    renderValue (JSVal.str s) = escapeHtml s := by
  constructor
  · rw [List.all_eq_true]
    intro c hc
    obtain ⟨h1, h2, h3, h4⟩ := escapeHtml_no_specials hc
    simp [h1, h2, h3, h4]
  · rfl

theorem splitPipe_no_pipe {l : List Char} (h : '|' ∉ l) :
    splitPipe l = [l] := by
  induction l with
  | nil => rfl
  | cons c cs ih =>
    have hc : ¬ c = '|' := fun hcp => h (hcp ▸ List.mem_cons_self _ _)
    have hcs : '|' ∉ cs := fun hm => h (List.mem_cons_of_mem _ hm)
    simp only [splitPipe, if_neg hc, ih hcs]

theorem splitPipe_append {l : List Char} (h : '|' ∉ l) (r : List Char) :
    splitPipe (l ++ '|' :: r) = l :: splitPipe r := by
  induction l with
  | nil => simp [splitPipe]
  | cons c cs ih =>
    have hc : ¬ c = '|' := fun hcp => h (hcp ▸ List.mem_cons_self _ _)
    have hcs : '|' ∉ cs := fun hm => h (List.mem_cons_of_mem _ hm)
    simp only [List.cons_append, splitPipe, if_neg hc, List.append_eq, ih hcs]

/-- C2: decoding an encoded compact client event recovers the exact
(shortId, eventName, value, checked, tagName) tuple, whenever the four
textual fields are free of the pipe delimiter and the tag name is already
lowercase as the client encoder guarantees. -/
theorem compactEvent_round_trip
    (shortId eventName value tagName : List Char) (checked : Bool)
    (h1 : '|' ∉ shortId) (h2 : '|' ∉ eventName) (h3 : '|' ∉ value)
    (h4 : '|' ∉ tagName) (h5 : jsToLowerCase tagName = tagName) :
    decodeCompactEvent
        (encodeCompactEvent shortId eventName value checked tagName) =
      some (shortId, eventName, value, checked, tagName) := by
  have hchk : '|' ∉ (if checked then ['1'] else ['0']) := by
    cases checked <;> decide
  unfold encodeCompactEvent decodeCompactEvent
  rw [List.drop_one, List.tail_cons]
  rw [show ('e' :: '|' :: shortId ++ '|' :: eventName ++ '|' :: value ++
      '|' :: (if checked then ['1'] else ['0']) ++ '|' :: tagName ++ ['"']) =
      (('e' :: '|' :: shortId ++ '|' :: eventName ++ '|' :: value ++
        '|' :: (if checked then ['1'] else ['0']) ++ '|' :: tagName) ++ ['"'])
      from by simp]
  rw [List.dropLast_concat]
  rw [show ('e' :: '|' :: shortId ++ '|' :: eventName ++ '|' :: value ++
      '|' :: (if checked then ['1'] else ['0']) ++ '|' :: tagName) =
      ['e'] ++ '|' :: (shortId ++ '|' :: (eventName ++ '|' :: (value ++
        '|' :: ((if checked then ['1'] else ['0']) ++ '|' :: tagName))))
      from by simp]
  rw [splitPipe_append (by decide), splitPipe_append h1,
    splitPipe_append h2, splitPipe_append h3, splitPipe_append hchk,
    splitPipe_no_pipe h4]
  simp only [decodeParts, List.length_cons, List.getD, List.get?]
  norm_num
  rw [h5]
  cases checked <;> simp

/-- Witness for C2 at a concrete event produced by the fallback connector. -/
theorem compactEvent_round_trip_witness :
    decodeCompactEvent
        (encodeCompactEvent "ab12cd34".data "increment".data "7".data true
          "button".data) =
      some ("ab12cd34".data, "increment".data, "7".data, true,
        "button".data) :=
  compactEvent_round_trip "ab12cd34".data "increment".data "7".data
    "button".data true (by decide) (by decide) (by decide) (by decide)
    (by decide)

theorem beginsWith_refl_append : ∀ m suf : List Char,
    beginsWith m (m ++ suf) = true := by
  intro m
  induction m with
  | nil => intro suf; rfl
  | cons a as ih => intro suf; simp [beginsWith, ih]

theorem jsIncludes_of_beginsWith {m hay : List Char}
    (h : beginsWith m hay = true) : jsIncludes hay m = true := by
  cases hay with
  | nil =>
    cases m with
    | nil => rfl
    | cons a as => simp [beginsWith] at h
  | cons c t => simp [jsIncludes, h]

theorem jsIncludes_append (pre m suf : List Char) :
    jsIncludes (pre ++ m ++ suf) m = true := by
  induction pre with
  | nil =>
    exact jsIncludes_of_beginsWith (beginsWith_refl_append m suf)
  | cons c pre ih =>
    simp only [List.cons_append, jsIncludes, List.append_eq, ih, Bool.or_true]

/-- C4: rendering an instance whose mount has not completed throws the
precondition error and produces no markup. -/
theorem render_requires_mounted (lv : LiveViewM) (h : lv.mounted = false) :
    lv_render lv = JsResult.thrown := by
  unfold lv_render
  rw [h]
  rfl

/-- Witness for C4 at a concrete unmounted instance. -/
theorem render_requires_mounted_witness :
    lv_render ⟨"c1".data, false, [], [], [], JsResult.ok (), none, none,
      JsResult.ok "<p>x</p>".data⟩ = JsResult.thrown :=
  render_requires_mounted _ rfl

/-- C9: mounting an already-mounted instance returns immediately: the user
mount hook does not run, nothing throws, and the instance (in particular
its mounted flag) is unchanged. -/
theorem mount_idempotent_when_mounted (lv : LiveViewM)
    (h : lv.mounted = true) : lv_mount lv = ⟨lv, false, false⟩ := by
  unfold lv_mount
  rw [h]
  rfl

/-- Witness for C9 at a concrete mounted instance. -/
theorem mount_idempotent_when_mounted_witness :
    lv_mount ⟨"c1".data, true, [], [], [], JsResult.ok (), none, none,
      JsResult.ok "<p>x</p>".data⟩ =
      ⟨⟨"c1".data, true, [], [], [], JsResult.ok (), none, none,
        JsResult.ok "<p>x</p>".data⟩, false, false⟩ :=
  mount_idempotent_when_mounted _ rfl

theorem lookup_append (l1 l2 : List (String × JSVal)) (k : String) :
    (l1 ++ l2).lookup k =
      match l1.lookup k with
      | some v => some v
      | none => l2.lookup k := by
  induction l1 with
  | nil => simp [List.lookup]
  | cons p l1 ih =>
    obtain ⟨a, w⟩ := p
    by_cases hk : k = a
    · subst hk
      simp [List.lookup]
    · have hb : (k == a) = false := beq_eq_false_iff_ne.mpr hk
      simp only [List.cons_append, List.lookup, hb]
      exact ih

theorem lookup_map_override (b : List (String × JSVal)) :
    ∀ (a : List (String × JSVal)) (k : String),
      (a.map (fun p =>
        match b.lookup p.1 with
        | some v => (p.1, v)
        | none => p)).lookup k =
        match a.lookup k with
        | none => none
        | some w => some ((b.lookup k).getD w) := by
  intro a
  induction a with
  | nil => intro k; simp [List.lookup]
  | cons p a ih =>
    intro k
    obtain ⟨c, w⟩ := p
    by_cases hk : k = c
    · subst hk
      cases hb : b.lookup k <;> simp [List.lookup, hb]
    · have hb2 : (k == c) = false := beq_eq_false_iff_ne.mpr hk
      cases hb : b.lookup c <;>
        · simp only [List.map_cons, hb, List.lookup, hb2]
          exact ih k

theorem lookup_filter_of_none (a b : List (String × JSVal)) (k : String)
    (hk : a.lookup k = none) :
    (b.filter (fun p => (a.lookup p.1).isNone)).lookup k = b.lookup k := by
  induction b with
  | nil => rfl
  | cons q b ih =>
    obtain ⟨c, w⟩ := q
    by_cases hq : k = c
    · subst hq
      rw [List.filter_cons, if_pos (by simp [hk])]
      simp [List.lookup]
    · have hb2 : (k == c) = false := beq_eq_false_iff_ne.mpr hq
      rw [List.filter_cons]
      by_cases hkeep : ((a.lookup c).isNone : Bool) = true
      · rw [if_pos (by simpa using hkeep)]
        simp only [List.lookup, hb2]
        exact ih
      · rw [if_neg (by simpa using hkeep)]
        rw [ih]
        simp only [List.lookup, hb2]

theorem spreadMerge_lookup (a b : List (String × JSVal)) (k : String) :
    (spreadMerge a b).lookup k =
      match b.lookup k with
      | some v => some v
      | none => a.lookup k := by
  unfold spreadMerge
  rw [lookup_append, lookup_map_override]
  cases ha : a.lookup k with
  | none =>
    rw [lookup_filter_of_none a b k ha]
    cases hb : b.lookup k <;> simp
  | some w =>
    cases hb : b.lookup k <;> simp [hb]

/-- C5 counterexample: the claim says a failure of the updated hook is
never propagated to the caller of setState, but a hook that throws
synchronously escapes before Promise.resolve wraps it, so this concrete
setState call throws back to its caller. -/
theorem setState_sync_throw_cex :
    (lv_setState
      ⟨"c1".data, true, [], [], [], JsResult.ok (),
        some HookBehavior.throwsSync, none, JsResult.ok "<p>x</p>".data⟩
      []).threw = true := rfl

/-- C5 (amended): setState spread-merges the updates into the current
state, and the only hook failure that reaches the caller is a synchronous
throw; a rejected promise from the hook never propagates (it is merely
logged). -/
theorem setState_merges_and_only_sync_throw_escapes (lv : LiveViewM)
    (u : List (String × JSVal)) :
    (∀ k, (lv_setState lv u).lv.state.lookup k =
      match u.lookup k with
      | some v => some v
      | none => lv.state.lookup k) ∧
    ((lv_setState lv u).threw = true ↔
      lv.updatedHook = some HookBehavior.throwsSync) := by
  have hst : (lv_setState lv u).lv.state = spreadMerge lv.state u := by
    unfold lv_setState
    cases hu : lv.updatedHook with
    | none => rfl
    | some hb => cases hb <;> rfl
  constructor
  · intro k
    rw [hst, spreadMerge_lookup]
  · unfold lv_setState
    cases hu : lv.updatedHook with
    | none => simp
    | some hb => cases hb <;> simp

/-- C6 counterexample: with a user unmount hook that throws, the first
unmount leaves the mounted flag set, so the second call runs the hook
again and throws again, contradicting the claimed no-op. -/
theorem unmount_twice_cex :
    (lv_unmount (lv_unmount
      ⟨"c1".data, true, [], [], ["chan"], JsResult.ok (), none,
        some HookBehavior.throwsSync, JsResult.ok "<p>x</p>".data⟩).lv).threw
        = true ∧
    (lv_unmount (lv_unmount
      ⟨"c1".data, true, [], [], ["chan"], JsResult.ok (), none,
        some HookBehavior.throwsSync,
        JsResult.ok "<p>x</p>".data⟩).lv).ranHook = true := by
  exact ⟨rfl, rfl⟩

/-- C6 (amended): provided the user unmount hook (when present) neither
throws nor rejects, calling the internal unmount twice makes the second
call a no-op: it returns without error, does not run the hook, and
unsubscribes nothing. -/
theorem lv_unmount_of_unmounted (lv : LiveViewM) (h : lv.mounted = false) :
    lv_unmount lv = ⟨lv, false, false, []⟩ := by
  unfold lv_unmount
  rw [if_pos h]

theorem unmount_twice_noop (lv : LiveViewM)
    (h1 : lv.unmountHook ≠ some HookBehavior.throwsSync)
    (h2 : lv.unmountHook ≠ some HookBehavior.rejects) :
    (lv_unmount (lv_unmount lv).lv).threw = false ∧
    (lv_unmount (lv_unmount lv).lv).ranHook = false ∧
    (lv_unmount (lv_unmount lv).lv).unsubscribed = [] := by
  by_cases hm : lv.mounted = false
  · rw [lv_unmount_of_unmounted lv hm]
    rw [show (UnmountOut.mk lv false false []).lv = lv from rfl]
    rw [lv_unmount_of_unmounted lv hm]
    exact ⟨rfl, rfl, rfl⟩
  · cases hu : lv.unmountHook with
    | none =>
      have hr1 : (lv_unmount lv).lv.mounted = false := by
        unfold lv_unmount
        rw [if_neg hm, hu]
      rw [lv_unmount_of_unmounted _ hr1]
      exact ⟨rfl, rfl, rfl⟩
    | some hb =>
      cases hb with
      | throwsSync => exact absurd hu h1
      | rejects => exact absurd hu h2
      | resolves =>
        have hr1 : (lv_unmount lv).lv.mounted = false := by
          unfold lv_unmount
          rw [if_neg hm, hu]
        rw [lv_unmount_of_unmounted _ hr1]
        exact ⟨rfl, rfl, rfl⟩

/-- Witness for C6 at a concrete mounted instance with one channel and a
well-behaved unmount hook. -/
theorem unmount_twice_noop_witness :
    (lv_unmount (lv_unmount
      ⟨"c1".data, true, [], [], ["chan"], JsResult.ok (), none,
        some HookBehavior.resolves, JsResult.ok "<p>x</p>".data⟩).lv).threw
        = false ∧
    (lv_unmount (lv_unmount
      ⟨"c1".data, true, [], [], ["chan"], JsResult.ok (), none,
        some HookBehavior.resolves,
        JsResult.ok "<p>x</p>".data⟩).lv).ranHook = false ∧
    (lv_unmount (lv_unmount
      ⟨"c1".data, true, [], [], ["chan"], JsResult.ok (), none,
        some HookBehavior.resolves,
        JsResult.ok "<p>x</p>".data⟩).lv).unsubscribed = [] :=
  unmount_twice_noop _ (by decide) (by decide)

/-- When the markup starts with an opening tag the regex can match, the
wrapped markup contains the boundary-marker attribute with the full id. -/
theorem wrap_includes_marker (id h : List Char)
    (ht : startsWithTag h = true) :
    jsIncludes (wrapWithComponentId id h) (markerFor id) = true := by
  unfold startsWithTag at ht
  cases h2 : afterChar '<' (h.dropWhile jsIsSpace) with
  | none => rw [h2] at ht; exact absurd ht (by simp)
  | some r2 =>
    rw [h2] at ht
    simp only [Bool.and_eq_true, Bool.not_eq_true'] at ht
    obtain ⟨hname, hsome⟩ := ht
    have hne : ¬ r2.takeWhile isWordChar = [] := by
      intro hnil
      rw [hnil] at hname
      simp at hname
    obtain ⟨rem, hrem⟩ := Option.isSome_iff_exists.mp hsome
    have hw : wrapTry id h =
        h.takeWhile jsIsSpace ++
          '<' :: (r2.takeWhile isWordChar ++
            (r2.dropWhile isWordChar).takeWhile (fun c => !(c == '>')) ++
            ' ' :: (markerFor id ++ '>' :: rem)) := by
      unfold wrapTry
      simp only [h2, hrem]
      rw [if_neg hne]
    have hwne : ¬ wrapTry id h = [] := by
      rw [hw]
      simp
    unfold wrapWithComponentId
    rw [if_neg hwne, hw]
    have hE : h.takeWhile jsIsSpace ++
        '<' :: (r2.takeWhile isWordChar ++
          (r2.dropWhile isWordChar).takeWhile (fun c => !(c == '>')) ++
          ' ' :: (markerFor id ++ '>' :: rem)) =
        (h.takeWhile jsIsSpace ++
          '<' :: (r2.takeWhile isWordChar ++
            (r2.dropWhile isWordChar).takeWhile (fun c => !(c == '>')) ++
            [' '])) ++ markerFor id ++ ('>' :: rem) := by
      simp
    rw [hE]
    exact jsIncludes_append _ _ _

/-- C8 counterexample: a mounted component whose render hook returns the
non-empty markup hello (no leading tag) is returned unwrapped by the
internal render, without any boundary-marker attribute. -/
theorem render_missing_boundary_cex :
    lv_render ⟨"c1".data, true, [], [], [], JsResult.ok (), none, none,
        JsResult.ok "hello".data⟩ = JsResult.ok "hello".data ∧
    jsIncludes "hello".data (markerFor "c1".data) = false := by
  exact ⟨rfl, by decide⟩

/-- C8 (amended): for a mounted component whose render hook returns markup
that starts, after optional whitespace, with an opening tag, the internal
render succeeds and its output contains the boundary-marker attribute
carrying the full component id. -/
theorem render_wraps_tagged_markup (lv : LiveViewM) (h : List Char)
    (hm : lv.mounted = true) (hr : lv.renderResult = JsResult.ok h)
    (ht : startsWithTag h = true) :
    ∃ out, lv_render lv = JsResult.ok out ∧
      jsIncludes out (markerFor lv.componentId) = true := by
  unfold lv_render
  rw [if_neg (by simp [hm]), hr]
  exact ⟨_, rfl, wrap_includes_marker lv.componentId h ht⟩

/-- Witness for C8 at a concrete mounted component rendering a div. -/
theorem render_wraps_tagged_markup_witness :
    ∃ out, lv_render ⟨"c1".data, true, [], [], [], JsResult.ok (), none,
        none, JsResult.ok "<div class=\"a\">hi</div>".data⟩ =
          JsResult.ok out ∧
      jsIncludes out (markerFor "c1".data) = true :=
  render_wraps_tagged_markup _ _ rfl rfl (by decide)

/-- C3: when the event cycle reaches the user handler (the old markup
resolved from the cache or from a successful seed render) and either the
handler or the post-event re-render throws, processEventAndGenerateMessage
returns null and the cached diff baseline keeps its previous value. -/
theorem event_failure_sends_nothing_and_keeps_cache (c : EventComponent)
    (cache : Option String) (gen : String → String → String)
    (hold : cache.isSome = true ∨ ∃ s, c.renderBefore = JsResult.ok s)
    (hfail : c.handlerOutcome = JsResult.thrown ∨
      c.renderAfter = JsResult.thrown) :
    processEventAndGenerateMessage (some c) cache gen =
      JsResult.ok (none, cache) := by
  unfold processEventAndGenerateMessage
  cases cache with
  | some h =>
    dsimp only
    rcases hfail with hf | hf
    · rw [hf]
    · rw [hf]
      cases c.handlerOutcome <;> rfl
  | none =>
    dsimp only
    rcases hold with hs | ⟨s, hs⟩
    · simp at hs
    · rw [hs]
      rcases hfail with hf | hf
      · rw [hf]
      · rw [hf]
        cases c.handlerOutcome <;> rfl

/-- Witness for C3: a component whose handler throws, with an empty cache
seeded by a successful render. -/
theorem event_failure_sends_nothing_and_keeps_cache_witness :
    processEventAndGenerateMessage
        (some ⟨JsResult.thrown, JsResult.ok "old", JsResult.ok "new"⟩)
        none (fun _ _ => "") = JsResult.ok (none, none) :=
  event_failure_sends_nothing_and_keeps_cache _ _ _
    (Or.inr ⟨"old", rfl⟩) (Or.inl rfl)

theorem afterChar_eq_some {c : Char} {l t : List Char}
    (h : afterChar c l = some t) : l = c :: t := by
  cases l with
  | nil => simp [afterChar] at h
  | cons x xs =>
    unfold afterChar at h
    dsimp only at h
    by_cases hx : x = c
    · rw [if_pos hx] at h
      injection h with h'
      rw [hx, h']
    · rw [if_neg hx] at h
      exact absurd h (by simp)

theorem parseTag_some_length {l n a rem : List Char}
    (h : parseTag l = some (n, a, rem)) : rem.length < l.length := by
  cases l with
  | nil => simp [parseTag] at h
  | cons c cs =>
    unfold parseTag at h
    dsimp only at h
    by_cases hc : c.isAlpha
    · rw [if_pos hc] at h
      cases hrem : afterChar '>'
          ((cs.dropWhile isTagChar).dropWhile (fun x => !(x == '>'))) with
      | none => rw [hrem] at h; simp at h
      | some rem' =>
        rw [hrem] at h
        simp only [Option.some.injEq, Prod.mk.injEq] at h
        obtain ⟨h1, h2, h3⟩ := h
        subst h3
        have hchain := afterChar_eq_some hrem
        have hlen1 : ('>' :: rem').length ≤ (cs.dropWhile isTagChar).length := by
          rw [← hchain]
          exact (List.dropWhile_sublist _).length_le
        have hlen2 : (cs.dropWhile isTagChar).length ≤ cs.length :=
          (List.dropWhile_sublist _).length_le
        simp only [List.length_cons] at hlen1 ⊢
        omega
    · rw [if_neg hc] at h; simp at h

theorem injectLoop_nil (hash : List Char) (k : Nat) :
    injectLoop hash [] k = [] := by
  rw [injectLoop.eq_def]

theorem injectLoop_cons_ne (hash : List Char) (c : Char) (cs : List Char)
    (k : Nat) (hc : ¬ c = '<') :
    injectLoop hash (c :: cs) k = c :: injectLoop hash cs k := by
  conv_lhs => rw [injectLoop.eq_def]
  dsimp only
  rw [if_neg hc]

theorem injectLoop_lt_none (hash : List Char) (cs : List Char) (k : Nat)
    (hp : parseTag cs = none) :
    injectLoop hash ('<' :: cs) k = '<' :: injectLoop hash cs k := by
  conv_lhs => rw [injectLoop.eq_def]
  dsimp only
  rw [if_pos rfl]
  split
  · next heq => rw [hp] at heq; exact absurd heq (by simp)
  · rfl

theorem injectLoop_lt_skip (hash cs : List Char) (k : Nat)
    (name attrs rem : List Char)
    (hp : parseTag cs = some (name, attrs, rem))
    (hm : jsIncludes attrs selMarker = true) :
    injectLoop hash ('<' :: cs) k =
      '<' :: (name ++ attrs ++ '>' :: injectLoop hash rem k) := by
  conv_lhs => rw [injectLoop.eq_def]
  dsimp only
  rw [if_pos rfl]
  split
  · next nA aA rA heq =>
    rw [hp] at heq
    simp only [Option.some.injEq, Prod.mk.injEq] at heq
    obtain ⟨e1, e2, e3⟩ := heq
    subst e1; subst e2; subst e3
    rw [if_pos hm]
  · next heq => rw [hp] at heq; exact absurd heq (by simp)

theorem injectLoop_lt_ins (hash cs : List Char) (k : Nat)
    (name attrs rem : List Char)
    (hp : parseTag cs = some (name, attrs, rem))
    (hm : jsIncludes attrs selMarker = false)
    (hcl : (jsIncludes attrs tsOnMarker || jsIncludes attrs classMarker)
      = true) :
    injectLoop hash ('<' :: cs) k =
      '<' :: (name ++ ' ' :: (selMarker ++ '"' :: (hash ++ '.' ::
        (toBase36 k ++ '"' :: attrs))) ++
          '>' :: injectLoop hash rem (k + 1)) := by
  conv_lhs => rw [injectLoop.eq_def]
  dsimp only
  rw [if_pos rfl]
  split
  · next nA aA rA heq =>
    rw [hp] at heq
    simp only [Option.some.injEq, Prod.mk.injEq] at heq
    obtain ⟨e1, e2, e3⟩ := heq
    subst e1; subst e2; subst e3
    rw [if_neg (by simp [hm]), if_pos hcl]
  · next heq => rw [hp] at heq; exact absurd heq (by simp)

theorem injectLoop_lt_noop (hash cs : List Char) (k : Nat)
    (name attrs rem : List Char)
    (hp : parseTag cs = some (name, attrs, rem))
    (hm : jsIncludes attrs selMarker = false)
    (hcl : (jsIncludes attrs tsOnMarker || jsIncludes attrs classMarker)
      = false) :
    injectLoop hash ('<' :: cs) k =
      '<' :: (name ++ attrs ++ '>' :: injectLoop hash rem k) := by
  conv_lhs => rw [injectLoop.eq_def]
  dsimp only
  rw [if_pos rfl]
  split
  · next nA aA rA heq =>
    rw [hp] at heq
    simp only [Option.some.injEq, Prod.mk.injEq] at heq
    obtain ⟨e1, e2, e3⟩ := heq
    subst e1; subst e2; subst e3
    rw [if_neg (by simp [hm]), if_neg (by simp [hcl])]
  · next heq => rw [hp] at heq; exact absurd heq (by simp)

theorem takeWhile_cons_head {q : Char → Bool} {l : List Char} {a0 : Char}
    {as : List Char} (h : l.takeWhile q = a0 :: as) : ∃ t, l = a0 :: t := by
  cases l with
  | nil => simp at h
  | cons x xs =>
    rw [List.takeWhile_cons] at h
    split at h
    · injection h with h1 _
      exact ⟨xs, by rw [h1]⟩
    · exact absurd h (by simp)

theorem dropWhile_head_false {p : Char → Bool} {l : List Char} {c0 : Char}
    {t : List Char} (h : l.dropWhile p = c0 :: t) : p c0 = false := by
  induction l with
  | nil => simp at h
  | cons x xs ih =>
    rw [List.dropWhile_cons] at h
    split at h
    · exact ih h
    · next hpx =>
      injection h with e1 _
      simp only [Bool.not_eq_true] at hpx
      rw [← e1]
      exact hpx

theorem parseTag_some {l n a rem : List Char}
    (h : parseTag l = some (n, a, rem)) :
    (∃ c nr, n = c :: nr ∧ c.isAlpha = true ∧ ∀ x ∈ nr, isTagChar x = true) ∧
    (∀ x ∈ a, (x == '>') = false) ∧
    (a = [] ∨ ∃ a0 as, a = a0 :: as ∧ isTagChar a0 = false) ∧
    l = n ++ a ++ '>' :: rem := by
  cases l with
  | nil => simp [parseTag] at h
  | cons c cs =>
    unfold parseTag at h
    dsimp only at h
    by_cases hc : c.isAlpha
    · rw [if_pos hc] at h
      cases hrem : afterChar '>'
          ((cs.dropWhile isTagChar).dropWhile (fun x => !(x == '>'))) with
      | none => rw [hrem] at h; simp at h
      | some rem' =>
        rw [hrem] at h
        simp only [Option.some.injEq, Prod.mk.injEq] at h
        obtain ⟨h1, h2, h3⟩ := h
        subst h3
        have hchain := afterChar_eq_some hrem
        refine ⟨⟨c, cs.takeWhile isTagChar, h1.symm, hc,
          fun x hx => List.mem_takeWhile_imp hx⟩, ?_, ?_, ?_⟩
        · intro x hx
          rw [← h2] at hx
          have hq := List.mem_takeWhile_imp hx
          simpa using hq
        · rw [← h2]
          cases hA : (cs.dropWhile isTagChar).takeWhile
              (fun x => !(x == '>')) with
          | nil => exact Or.inl rfl
          | cons a0 as =>
            right
            obtain ⟨t, ht⟩ := takeWhile_cons_head hA
            exact ⟨a0, as, rfl, dropWhile_head_false ht⟩
        · have hXd : cs.dropWhile isTagChar = a ++ '>' :: rem' := by
            rw [← h2, ← hchain]
            exact (List.takeWhile_append_dropWhile _ _).symm
          have hXc : cs = cs.takeWhile isTagChar ++ (a ++ '>' :: rem') := by
            rw [← hXd]
            exact (List.takeWhile_append_dropWhile _ _).symm
          rw [← h1]
          simp only [List.cons_append, List.append_assoc]
          rw [← hXc]
    · rw [if_neg hc] at h; simp at h

theorem gt_mem_of_parseTag_some {l n a rem : List Char}
    (hp : parseTag l = some (n, a, rem)) : '>' ∈ l := by
  obtain ⟨_, _, _, hl⟩ := parseTag_some hp
  rw [hl]
  simp

theorem injectLoop_no_gt : ∀ (l : List Char), '>' ∉ l →
    ∀ (hash : List Char) (k : Nat), injectLoop hash l k = l := by
  intro l
  induction l with
  | nil => intro _ hash k; exact injectLoop_nil hash k
  | cons c cs ih =>
    intro h hash k
    have hcs : '>' ∉ cs := fun hm => h (List.mem_cons_of_mem _ hm)
    by_cases hc : c = '<'
    · subst hc
      have hp : parseTag cs = none := by
        cases hpp : parseTag cs with
        | none => rfl
        | some x =>
          obtain ⟨n, a, rem⟩ := x
          exact absurd (gt_mem_of_parseTag_some hpp) hcs
      rw [injectLoop_lt_none _ _ _ hp, ih hcs hash k]
    · rw [injectLoop_cons_ne _ _ _ _ hc, ih hcs hash k]

theorem injectLoop_head (hash : List Char) (c : Char) (cs : List Char)
    (k : Nat) : ∃ t, injectLoop hash (c :: cs) k = c :: t := by
  by_cases hc : c = '<'
  · subst hc
    cases hp : parseTag cs with
    | none => exact ⟨_, injectLoop_lt_none _ _ _ hp⟩
    | some x =>
      obtain ⟨n, a, rem⟩ := x
      by_cases h1 : jsIncludes a selMarker = true
      · exact ⟨_, injectLoop_lt_skip _ _ _ _ _ _ hp h1⟩
      · have h1' : jsIncludes a selMarker = false := by
          revert h1; cases jsIncludes a selMarker <;> simp
        by_cases h2 : (jsIncludes a tsOnMarker || jsIncludes a classMarker)
            = true
        · exact ⟨_, injectLoop_lt_ins _ _ _ _ _ _ hp h1' h2⟩
        · have h2' : (jsIncludes a tsOnMarker || jsIncludes a classMarker)
              = false := by
            revert h2
            cases jsIncludes a tsOnMarker <;>
              cases jsIncludes a classMarker <;> simp
          exact ⟨_, injectLoop_lt_noop _ _ _ _ _ _ hp h1' h2'⟩
  · exact ⟨_, injectLoop_cons_ne _ _ _ _ hc⟩

theorem parseTag_alpha_none {c : Char} {cs : List Char}
    (hc : c.isAlpha = true) (hp : parseTag (c :: cs) = none) : '>' ∉ cs := by
  intro hmem
  have h1 : '>' ∈ cs.dropWhile isTagChar := by
    have hsplit : '>' ∈ cs.takeWhile isTagChar ++ cs.dropWhile isTagChar := by
      rw [List.takeWhile_append_dropWhile]
      exact hmem
    rcases List.mem_append.mp hsplit with h | h
    · have hq := List.mem_takeWhile_imp h
      exact absurd hq (by decide)
    · exact h
  have h2 : (cs.dropWhile isTagChar).dropWhile (fun x => !(x == '>'))
      ≠ [] := by
    rw [Ne, List.dropWhile_eq_nil_iff]
    intro hall
    have hx := hall '>' h1
    simp at hx
  cases hl : (cs.dropWhile isTagChar).dropWhile (fun x => !(x == '>')) with
  | nil => exact h2 hl
  | cons y ys =>
    have hy := dropWhile_head_false hl
    have hygt : y = '>' := by simpa using hy
    unfold parseTag at hp
    dsimp only at hp
    rw [if_pos hc, hl, hygt] at hp
    simp [afterChar] at hp

theorem parseTag_none_injectLoop {cs : List Char} (hp : parseTag cs = none)
    (hash : List Char) (k : Nat) :
    parseTag (injectLoop hash cs k) = none := by
  cases cs with
  | nil => rw [injectLoop_nil]; rfl
  | cons c cs' =>
    by_cases hcA : c.isAlpha = true
    · have hgt : '>' ∉ cs' := parseTag_alpha_none hcA hp
      have hlt : ¬ c = '<' := by
        intro hh
        rw [hh] at hcA
        exact absurd hcA (by decide)
      rw [injectLoop_cons_ne _ _ _ _ hlt, injectLoop_no_gt cs' hgt hash k]
      exact hp
    · obtain ⟨t, ht⟩ := injectLoop_head hash c cs' k
      rw [ht]
      unfold parseTag
      dsimp only
      rw [if_neg hcA]

theorem takeWhile_all_head (p : Char → Bool) :
    ∀ (l1 l2 : List Char), (∀ x ∈ l1, p x = true) →
      (∀ c cs, l2 = c :: cs → p c = false) →
      (l1 ++ l2).takeWhile p = l1 ∧ (l1 ++ l2).dropWhile p = l2 := by
  intro l1
  induction l1 with
  | nil =>
    intro l2 _ h2
    constructor
    · cases l2 with
      | nil => rfl
      | cons c cs =>
        rw [List.nil_append, List.takeWhile_cons]
        rw [h2 c cs rfl]
        rfl
    · cases l2 with
      | nil => rfl
      | cons c cs =>
        rw [List.nil_append, List.dropWhile_cons]
        rw [h2 c cs rfl]
        rfl
  | cons a l1 ih =>
    intro l2 h1 h2
    have ha : p a = true := h1 a (List.mem_cons_self _ _)
    obtain ⟨iht, ihd⟩ := ih l2 (fun x hx => h1 x (List.mem_cons_of_mem _ hx)) h2
    constructor
    · rw [List.cons_append, List.takeWhile_cons, ha]
      rw [iht]
      rfl
    · rw [List.cons_append, List.dropWhile_cons, ha]
      rw [ihd]
      rfl

theorem parseTag_reconstruct (c : Char) (nr attrs rest : List Char)
    (hc : c.isAlpha = true)
    (hname : ∀ x ∈ nr, isTagChar x = true)
    (hattrs : ∀ x ∈ attrs, (x == '>') = false)
    (hhead : attrs = [] ∨ ∃ a0 as, attrs = a0 :: as ∧ isTagChar a0 = false) :
    parseTag ((c :: nr) ++ attrs ++ '>' :: rest) =
      some (c :: nr, attrs, rest) := by
  simp only [List.cons_append, List.append_assoc]
  unfold parseTag
  dsimp only
  rw [if_pos hc]
  have h2 : ∀ c2 cs2, (attrs ++ '>' :: rest) = c2 :: cs2 →
      isTagChar c2 = false := by
    intro c2 cs2 heq
    rcases hhead with hnil | ⟨a0, as, ha, h0⟩
    · rw [hnil, List.nil_append] at heq
      injection heq with e1 _
      rw [← e1]
      decide
    · rw [ha, List.cons_append] at heq
      injection heq with e1 _
      rw [← e1]
      exact h0
  obtain ⟨ht, hd⟩ := takeWhile_all_head isTagChar nr (attrs ++ '>' :: rest)
    hname h2
  rw [ht, hd]
  have h3 : ∀ c2 cs2, ('>' :: rest) = c2 :: cs2 →
      (fun x => !(x == '>')) c2 = false := by
    intro c2 cs2 heq
    injection heq with e1 _
    rw [← e1]
    decide
  have h4 : ∀ x ∈ attrs, (fun x => !(x == '>')) x = true := by
    intro x hx
    simp [hattrs x hx]
  obtain ⟨ht2, hd2⟩ := takeWhile_all_head (fun x => !(x == '>')) attrs
    ('>' :: rest) h4 h3
  rw [ht2, hd2]
  rw [show afterChar '>' ('>' :: rest) = some rest from by
    simp [afterChar]]

theorem base36Digit_ne_gt : ∀ m < 36, (base36Digit m == '>') = false := by
  decide

theorem mem_toBase36Go_ne_gt :
    ∀ (n : Nat) (acc : List Char), (∀ c ∈ acc, (c == '>') = false) →
      ∀ c ∈ toBase36Go n acc, (c == '>') = false := by
  intro n
  induction n using Nat.strong_induction_on with
  | _ n ih =>
    intro acc hacc c hc
    by_cases h0 : n = 0
    · unfold toBase36Go at hc
      rw [dif_pos h0] at hc
      exact hacc c hc
    · unfold toBase36Go at hc
      rw [dif_neg h0] at hc
      refine ih (n / 36)
        (Nat.div_lt_self (Nat.pos_of_ne_zero h0) (by norm_num)) _ ?_ c hc
      intro x hx
      rcases List.mem_cons.mp hx with hx | hx
      · rw [hx]
        exact base36Digit_ne_gt _ (Nat.mod_lt _ (by norm_num))
      · exact hacc x hx

theorem mem_toBase36_ne_gt (n : Nat) :
    ∀ c ∈ toBase36 n, (c == '>') = false := by
  intro c hc
  unfold toBase36 at hc
  by_cases h0 : n = 0
  · rw [if_pos h0] at hc
    simp only [List.mem_singleton] at hc
    rw [hc]
    decide
  · rw [if_neg h0] at hc
    exact mem_toBase36Go_ne_gt n [] (by intro x hx; simp at hx) c hc

theorem mem_createShortHash_ne_gt (l : List Char) :
    ∀ c ∈ createShortHash l, (c == '>') = false := by
  intro c hc
  unfold createShortHash padStartZeros at hc
  rcases List.mem_append.mp hc with hc | hc
  · rw [List.eq_of_mem_replicate hc]
    decide
  · exact mem_toBase36_ne_gt _ c (List.take_subset _ _ hc)

theorem selMarker_ne_gt : ∀ x ∈ selMarker, (x == '>') = false := by decide

/-- The scan of the smart injector is idempotent: a second pass over its
output, with any hash and counter, changes nothing, because every element
that received a selector token now carries the data-ts-sel marker and is
skipped, and every other fragment is reproduced verbatim. -/
theorem injectLoop_idem (hash : List Char)
    (hhash : ∀ x ∈ hash, (x == '>') = false) :
    ∀ (l : List Char) (k : Nat) (hash' : List Char) (k' : Nat),
      injectLoop hash' (injectLoop hash l k) k' = injectLoop hash l k := by
  suffices H : ∀ (N : Nat) (l : List Char), l.length ≤ N →
      ∀ (k : Nat) (hash' : List Char) (k' : Nat),
        injectLoop hash' (injectLoop hash l k) k' = injectLoop hash l k by
    intro l k hash' k'
    exact H l.length l le_rfl k hash' k'
  intro N
  induction N with
  | zero =>
    intro l hl k hash' k'
    rw [List.eq_nil_of_length_eq_zero (Nat.le_zero.mp hl)]
    simp only [injectLoop_nil]
  | succ N ihN =>
    intro l hl k hash' k'
    cases l with
    | nil => simp only [injectLoop_nil]
    | cons c cs =>
      have hcs : cs.length ≤ N := by
        simp only [List.length_cons] at hl
        omega
      by_cases hc : c = '<'
      · subst hc
        cases hp : parseTag cs with
        | none =>
          rw [injectLoop_lt_none _ _ _ hp]
          have hp2 : parseTag (injectLoop hash cs k) = none :=
            parseTag_none_injectLoop hp hash k
          rw [injectLoop_lt_none _ _ _ hp2]
          rw [ihN cs hcs k hash' k']
        | some x =>
          obtain ⟨name, attrs, rem⟩ := x
          obtain ⟨⟨c0, nr, hnc, hc0, hnr⟩, hattrs, hhead, hleq⟩ :=
            parseTag_some hp
          have hremlen : rem.length ≤ N := by
            have hlt := parseTag_some_length hp
            omega
          by_cases h1 : jsIncludes attrs selMarker = true
          · rw [injectLoop_lt_skip _ _ _ _ _ _ hp h1]
            have hre : parseTag (name ++ attrs ++
                '>' :: injectLoop hash rem k) =
                some (name, attrs, injectLoop hash rem k) := by
              rw [hnc]
              exact parseTag_reconstruct c0 nr attrs _ hc0 hnr hattrs hhead
            rw [injectLoop_lt_skip _ _ _ _ _ _ hre h1]
            rw [ihN rem hremlen k hash' k']
          · have h1' : jsIncludes attrs selMarker = false := by
              revert h1; cases jsIncludes attrs selMarker <;> simp
            by_cases h2 : (jsIncludes attrs tsOnMarker ||
                jsIncludes attrs classMarker) = true
            · rw [injectLoop_lt_ins _ _ _ _ _ _ hp h1' h2]
              have hAattrs : ∀ x ∈ ' ' :: (selMarker ++ '"' :: (hash ++
                  '.' :: (toBase36 k ++ '"' :: attrs))),
                  (x == '>') = false := by
                intro x hx
                simp only [List.mem_cons, List.mem_append] at hx
                rcases hx with rfl | hx | rfl | hx | rfl | hx | rfl | hx
                · decide
                · exact selMarker_ne_gt x hx
                · decide
                · exact hhash x hx
                · decide
                · exact mem_toBase36_ne_gt k x hx
                · decide
                · exact hattrs x hx
              have hAhead : (' ' :: (selMarker ++ '"' :: (hash ++
                  '.' :: (toBase36 k ++ '"' :: attrs))) : List Char) = [] ∨
                  ∃ a0 as, (' ' :: (selMarker ++ '"' :: (hash ++
                    '.' :: (toBase36 k ++ '"' :: attrs))) : List Char) =
                    a0 :: as ∧ isTagChar a0 = false :=
                Or.inr ⟨' ', _, rfl, by decide⟩
              have hre : parseTag (name ++ (' ' :: (selMarker ++ '"' ::
                  (hash ++ '.' :: (toBase36 k ++ '"' :: attrs)))) ++
                  '>' :: injectLoop hash rem (k + 1)) =
                  some (name, ' ' :: (selMarker ++ '"' :: (hash ++
                    '.' :: (toBase36 k ++ '"' :: attrs))),
                    injectLoop hash rem (k + 1)) := by
                rw [hnc]
                exact parseTag_reconstruct c0 nr _ _ hc0 hnr hAattrs hAhead
              have hAm : jsIncludes (' ' :: (selMarker ++ '"' :: (hash ++
                  '.' :: (toBase36 k ++ '"' :: attrs)))) selMarker
                  = true := by
                have hj := jsIncludes_append [' '] selMarker
                  ('"' :: (hash ++ '.' :: (toBase36 k ++ '"' :: attrs)))
                simpa using hj
              rw [injectLoop_lt_skip _ _ _ _ _ _ hre hAm]
              rw [ihN rem hremlen (k + 1) hash' k']
            · have h2' : (jsIncludes attrs tsOnMarker ||
                  jsIncludes attrs classMarker) = false := by
                revert h2
                cases jsIncludes attrs tsOnMarker <;>
                  cases jsIncludes attrs classMarker <;> simp
              rw [injectLoop_lt_noop _ _ _ _ _ _ hp h1' h2']
              have hre : parseTag (name ++ attrs ++
                  '>' :: injectLoop hash rem k) =
                  some (name, attrs, injectLoop hash rem k) := by
                rw [hnc]
                exact parseTag_reconstruct c0 nr attrs _ hc0 hnr hattrs hhead
              rw [injectLoop_lt_noop _ _ _ _ _ _ hre h1' h2']
              rw [ihN rem hremlen k hash' k']
      · rw [injectLoop_cons_ne _ _ _ _ hc]
        rw [injectLoop_cons_ne _ _ _ _ hc]
        rw [ihN cs hcs k hash' k']

/-- C7: the selector injector is idempotent: applying
injectReactiveSelectorsSmart to its own output (same component id and
state keys) returns that output unchanged, since elements already carrying
the data-ts-sel attribute are detected and left untouched. -/
theorem injectReactiveSelectorsSmart_idempotent
    (html componentId : List Char) (stateKeys : List (List Char)) :
    injectReactiveSelectorsSmart
        (injectReactiveSelectorsSmart html componentId stateKeys)
        componentId stateKeys =
      injectReactiveSelectorsSmart html componentId stateKeys := by
  unfold injectReactiveSelectorsSmart
  exact injectLoop_idem (createShortHash componentId)
    (mem_createShortHash_ne_gt componentId) html 0 (createShortHash componentId) 0

end LiveTS
